import Mathlib

/-!
Verification of the Lexora legal-RAG pipeline (src/chat.py, src/ingest.py).

The pipeline code is shallowly embedded: pure Python string/list/dict
manipulation is translated to executable Lean functions over `String`,
`List Char`, `Nat` and `ℚ`; outbound network calls (embedding service,
vector indexes, chat completions) are modelled as explicit oracle
parameters — a call's response is an input of the embedded function
(`Option String` for a completion that may fail, lists of retrieved
matches for the vector indexes, `Except String String` for a call whose
exception is caught at the top level).

Python strings are modelled at the level of character sequences
(`String.data`), restricted to the character classes the code actually
relies on: `str.strip` strips `Char.isWhitespace`, `\w` of `re` is
modelled as ASCII alphanumerics plus underscore, `str.upper` maps
`Char.toUpper`.  Similarity scores (Python floats used only in `>`/`≤`
comparisons and sorting) are modelled as rationals.
-/

namespace Lexora

/-! ### Python string helpers -/

/-- Python `str.strip()`: drop leading and trailing whitespace. -/
def stripWs (s : String) : String :=
  ⟨((s.data.dropWhile Char.isWhitespace).reverse.dropWhile Char.isWhitespace).reverse⟩

/-- Python `str.upper()` (ASCII model). -/
def pyUpper (s : String) : String :=
  ⟨s.data.map Char.toUpper⟩

/-- Python slice `s[:n]`. -/
def pyTake (s : String) (n : Nat) : String :=
  ⟨s.data.take n⟩

/-- Python `s.rsplit(' ', 1)[0]`: everything before the last space, or the
whole string when it contains no space. -/
def rsplitHeadSpace (s : String) : String :=
  if s.data.contains ' ' then
    ⟨((s.data.reverse.dropWhile (fun c => c ≠ ' ')).drop 1).reverse⟩
  else s

/-- Python `s.strip(cut)`: drop leading and trailing characters from `cut`. -/
def pyStripChars (cut : List Char) (s : String) : String :=
  ⟨((s.data.dropWhile (fun c => cut.contains c)).reverse.dropWhile
      (fun c => cut.contains c)).reverse⟩

/-- Character-level worker for Python `s.split("\n")`. -/
def splitLinesCh : List Char → List (List Char)
  | [] => [[]]
  | c :: cs =>
    if c = '\n' then [] :: splitLinesCh cs
    else
      match splitLinesCh cs with
      | [] => [[c]]
      | l :: ls => (c :: l) :: ls

/-- Python `s.split("\n")`. -/
def pySplitLines (s : String) : List String :=
  (splitLinesCh s.data).map String.mk

/-- A word character of `re`'s `\w` (ASCII model): letter, digit or `_`. -/
def wordChar (c : Char) : Bool := c.isAlphanum || c = '_'

/-- Single-pass worker for `wordRuns`: `cur` is the (reversed) run of
word characters read so far. -/
def wordRunsAux : List Char → List Char → List (List Char)
  | [], cur => if cur = [] then [] else [cur.reverse]
  | c :: cs, cur =>
    if wordChar c then wordRunsAux cs (c :: cur)
    else if cur = [] then wordRunsAux cs [] else cur.reverse :: wordRunsAux cs []

/-- Maximal runs of word characters of a character sequence.  `\b\d+\b`
matches exactly those runs that consist solely of digits. -/
def wordRuns (cs : List Char) : List (List Char) :=
  wordRunsAux cs []

/-- Decimal value of a digit run (Python `int` on a digit string). -/
def digitsToNat (cs : List Char) : Nat :=
  cs.foldl (fun n c => 10 * n + (c.toNat - 48)) 0

/-- Python `re.findall(r'\b\d+\b', s)` followed by `int(...)`: the maximal
word-character runs consisting solely of digits, as numbers, in order of
occurrence. -/
def pyFindNumbers (s : String) : List Nat :=
  ((wordRuns s.data).filter (fun r => r.all Char.isDigit)).map digitsToNat

/-! ### Data model: retrieval matches (chat.py)

A Pinecone match as `chat.py` consumes it: a document id, a similarity
score, and the metadata fields the query-time pipeline reads (`text` and
the `index_source` tag the retriever stamps on every match). -/

structure Metadata where
  text : String
  index_source : String
  deriving DecidableEq, Repr, Inhabited

structure Match where
  id : String
  score : ℚ
  metadata : Metadata
  deriving DecidableEq, Repr, Inhabited

/-! ### Multi-Index Retriever (chat.py, `multi_query_retrieve`) -/

/-- One step of the running-map merge of `multi_query_retrieve`
(chat.py lines 125–128): Python dict update
`if m["id"] not in expanded_matches or m["score"] > expanded_matches[m["id"]]["score"]:
expanded_matches[m["id"]] = m`.  A new id is appended; an existing id's
entry is replaced in place only when the incoming score is strictly
higher. -/
def insertMatch (acc : List Match) (m : Match) : List Match :=
  match acc with
  | [] => [m]
  | a :: rest =>
    if a.id = m.id then (if m.score > a.score then m else a) :: rest
    else a :: insertMatch rest m

/-- Fold the arrival sequence of matches into the dedup map and return
its values (`list(expanded_matches.values())`). -/
def mergeMatches (ms : List Match) : List Match :=
  ms.foldl insertMatch []

/-- Model of `multi_query_retrieve` (chat.py lines 108–137).  The network side —
query expansion, per-query embedding and the per-index `idx.query` calls —
is modelled by the oracle `results`: one match list per (expanded query,
index) pair, in expansion order × index iteration order; a pair whose
call failed contributes the matches inserted before the exception (a
failed embedding contributes `[]`). -/
def multi_query_retrieve (question : String) (results : List (List Match)) :
    List Match :=
  if stripWs question = "" then [] else mergeMatches results.flatten

/-! ### Cross-Link Expander (chat.py, `expand_with_links`) -/

/-- Python dict comprehension `{c["id"]: c for c in chunks}`: later
duplicate ids overwrite in place. -/
def upsertById (acc : List Match) (m : Match) : List Match :=
  match acc with
  | [] => [m]
  | a :: rest => if a.id = m.id then m :: rest else a :: upsertById rest m

/-- Python `if m["id"] not in expanded: expanded[m["id"]] = m` — first
occurrence wins. -/
def addIfAbsent (acc : List Match) (m : Match) : List Match :=
  if (acc.map Match.id).contains m.id then acc else acc ++ [m]

/-- Model of `expand_with_links` (chat.py lines 142–171).  The follow-up index
queries seeded from `schedule`/`appendix`/`part` metadata are modelled by
the oracle `followups`: the match lists of the cross-link queries in the
order issued (failed queries contribute nothing). -/
def expand_with_links (chunks : List Match) (followups : List (List Match)) :
    List Match :=
  if chunks = [] then []
  else followups.flatten.foldl addIfAbsent (chunks.foldl upsertById [])

/-! ### Reranker (chat.py, `rerank_chunks`) -/

/-- The index-selection loop over the regex-extracted numbers
(chat.py lines 211–220): keep in-range, unseen indices in order of
appearance; stop once `top_k` are collected. -/
def selectIdx : List Nat → Nat → Nat → List Nat → List Nat
  | [], _, _, acc => acc
  | num :: rest, n, k, acc =>
    let acc2 := if num < n ∧ num ∉ acc then acc ++ [num] else acc
    if k ≤ acc2.length then acc2 else selectIdx rest n k acc2

/-- The deterministic padding loop (chat.py lines 221–226): append the
untaken indices in original pool order until `top_k` are reached. -/
def padIdx : List Nat → Nat → List Nat → List Nat
  | acc, _, [] => acc
  | acc, k, i :: rest =>
    let acc2 := if i ∉ acc then acc ++ [i] else acc
    if k ≤ acc2.length then acc2 else padIdx acc2 k rest

/-- Stable descending insertion used to model Python's stable
`sorted(chunks, key=lambda x: x.get("score", 0), reverse=True)`. -/
def insertDesc (m : Match) : List Match → List Match
  | [] => [m]
  | a :: rest => if m.score ≥ a.score then m :: a :: rest else a :: insertDesc m rest

/-- Python `sorted(..., key=score, reverse=True)` — stable descending sort. -/
def sortByScoreDesc (l : List Match) : List Match :=
  l.foldr insertDesc []

/-- Model of `rerank_chunks` (chat.py lines 176–230).  The ranking completion call
is the oracle `resp`: `some raw` is the model's text, `none` is any
exception inside the `try` block (call failure, timeout, malformed
response object), which the code answers with the score-sort fallback. -/
def rerank_chunks (question : String) (chunks : List Match) (top_k : Nat)
    (resp : Option String) : List Match :=
  if chunks = [] then []
  else if chunks.length ≤ top_k then chunks.take top_k
  else
    match resp with
    | some raw =>
      let numbers := pyFindNumbers (stripWs raw)
      let sel := selectIdx numbers chunks.length top_k []
      let sel2 := if sel.length < top_k then padIdx sel top_k (List.range chunks.length) else sel
      (sel2.take top_k).map (fun i => chunks.getD i default)
    | none => (sortByScoreDesc chunks).take top_k

/-! ### Context Assembler (chat.py, `build_context`) -/

/-- The accepted snippets of `build_context` (chat.py lines 235–253),
before the `"\n\n".join`.  `total` is the running `total_length`, which
the code advances by each accepted snippet's length (the join separators
are not counted). -/
def buildParts (maxLen : Nat) : List Match → Nat → List String
  | [], _ => []
  | c :: rest, total =>
    if stripWs c.metadata.text = "" then buildParts maxLen rest total
    else
      let snippet := "[" ++ pyUpper c.metadata.index_source ++ "] " ++ c.metadata.text
      if total + snippet.length > maxLen then
        if maxLen - total > 100 then
          [rsplitHeadSpace (pyTake snippet (maxLen - total)) ++ "..."]
        else []
      else
        snippet ::
          (if maxLen ≤ total + snippet.length then []
           else buildParts maxLen rest (total + snippet.length))

/-- Python `"\n\n".join`. -/
def joinParts : List String → String
  | [] => ""
  | [p] => p
  | p :: q :: rest => p ++ "\n\n" ++ joinParts (q :: rest)

/-- Model of `build_context` (chat.py lines 235–254). -/
def build_context (chunks : List Match) (max_length : Nat) : String :=
  joinParts (buildParts max_length chunks 0)

/-! ### Query Expander (chat.py, `generate_alternative_queries`) -/

/-- The character set of `q.strip("-•1234567890. ")`. -/
def stripSetChars : List Char :=
  ['-', '•', '1', '2', '3', '4', '5', '6', '7', '8', '9', '0', '.', ' ']

/-- The parsed variations
`[q.strip("-•1234567890. ") for q in content.split("\n") if q.strip()]`
(chat.py line 102). -/
def variationsOf (content : String) : List String :=
  ((pySplitLines content).filter (fun q => stripWs q != "")).map
    (fun q => pyStripChars stripSetChars q)

/-- The contents of the Python set `set([question] + variations)`, as a
duplicate-free list.  Python's set iteration order over strings is
unspecified (hash-randomized); `generate_alternative_queries` therefore
takes the iteration order as an explicit parameter. -/
def candidateSet (question content : String) : List String :=
  (question :: variationsOf content).dedup

/-- Model of `generate_alternative_queries` (chat.py lines 79–106).  `resp` is the
expansion completion call (`none` = exception, answered by the singleton
fallback); `order` models the unspecified iteration order of
`list(set(...))` — a faithful instantiation is any permutation of the
set's member list. -/
def generate_alternative_queries (question : String) (n : Nat)
    (resp : Option String) (order : List String → List String) : List String :=
  if stripWs question = "" then [question]
  else
    match resp with
    | none => [question]
    | some raw => (order (candidateSet question (stripWs raw))).take (n + 1)

/-! ### Answer pipeline (chat.py, `answer_question`) -/

/-- The network oracle of one `answer_question` run: the retrieval
results per (expanded query, index), the cross-link follow-up results,
the reranking completion response, and the final synthesis completion —
the one call of the `try` block whose exception reaches the top-level
`except` (`Except.error e` carries Python's `str(e)`). -/
structure QueryEnv where
  retrieveResults : List (List Match)
  crossLinkResults : List (List Match)
  rerankResp : Option String
  synthResp : Except String String

/-- Model of `answer_question` (chat.py lines 259–288).  Session persistence
(`chat_history`, `save_session`) is an external side effect with no
bearing on the returned string and is not modelled. -/
def answer_question (question : String) (env : QueryEnv) : String :=
  if stripWs question = "" then "Please provide a valid question."
  else
    let candidate_chunks := multi_query_retrieve question env.retrieveResults
    if candidate_chunks = [] then "I couldn\x27t find relevant information."
    else
      let expanded_chunks := expand_with_links candidate_chunks env.crossLinkResults
      let top_chunks := rerank_chunks question expanded_chunks 5 env.rerankResp
      let context := build_context top_chunks 8000
      if stripWs context = "" then
        "I found data but couldn’t extract meaningful content."
      else
        match env.synthResp with
        | Except.ok answer => answer
        | Except.error e => "❌ Error while answering: " ++ e

/-! ### Ingestion-side metadata values (ingest.py)

`sanitize_metadata` dispatches on the runtime type of each Python value.
`PyVal` covers the value shapes the normalizer produces and the
sanitizer handles: `None`, strings, ints, bools, lists and (string-keyed)
dicts; floats are not modelled (the code treats them exactly like ints —
passed through unchanged). -/

inductive PyVal where
  | none
  | str (s : String)
  | int (n : Int)
  | bool (b : Bool)
  | list (l : List PyVal)
  | dict (d : List (String × PyVal))
  deriving Repr

/-- Python `repr` for `PyVal` (strings rendered with single quotes). -/
def pyRepr : PyVal → String
  | PyVal.none => "None"
  | PyVal.str s => "\x27" ++ s ++ "\x27"
  | PyVal.int n => toString n
  | PyVal.bool b => if b then "True" else "False"
  | PyVal.list l =>
      "[" ++ String.intercalate ", " (l.attach.map (fun x => pyRepr x.1)) ++ "]"
  | PyVal.dict d =>
      "\x7b" ++
        String.intercalate ", "
          (d.attach.map (fun x => "\x27" ++ x.1.1 ++ "\x27: " ++ pyRepr x.1.2)) ++
      "\x7d"
decreasing_by
  all_goals simp_wf
  · have h1 := List.sizeOf_lt_of_mem x.2
    omega
  · rcases x with ⟨⟨a, b⟩, hx⟩
    have h1 := List.sizeOf_lt_of_mem hx
    simp at h1 ⊢
    omega

/-- Python `str` for `PyVal`: identity on strings, `repr` otherwise
(for every non-`str` value Python's `str` and `repr` agree; scalars are
spelled out so that they compute by structural recursion). -/
def pyStr : PyVal → String
  | PyVal.none => "None"
  | PyVal.str s => s
  | PyVal.int n => toString n
  | PyVal.bool b => if b then "True" else "False"
  | PyVal.list l => pyRepr (PyVal.list l)
  | PyVal.dict d => pyRepr (PyVal.dict d)

/-- Python `isinstance(v, str)`. -/
def isStrVal : PyVal → Bool
  | PyVal.str _ => true
  | _ => false

/-- Python `v is None`. -/
def isNoneVal : PyVal → Bool
  | PyVal.none => true
  | _ => false

/-- The dict-flattening expression of `sanitize_metadata`
(ingest.py line 160):
`" | ".join(f"{ik}:{iv}" for ik, iv in v.items() if iv is not None)`. -/
def flattenDict (d : List (String × PyVal)) : String :=
  String.intercalate " | "
    ((d.filter (fun p => !(isNoneVal p.2))).map (fun p => p.1 ++ ":" ++ pyStr p.2))

/-- Python dict assignment `safe[k] = v` on an insertion-ordered pair
list: replace in place, else append. -/
def pySet (d : List (String × PyVal)) (k : String) (v : PyVal) :
    List (String × PyVal) :=
  match d with
  | [] => [(k, v)]
  | (k0, v0) :: rest => if k0 = k then (k, v) :: rest else (k0, v0) :: pySet rest k v

/-- The per-value translation performed by `sanitize_metadata`'s branches
(ingest.py lines 144–165): scalars pass through, all-string lists pass
through, other lists become `" | "`-joined strings, dicts are flattened
with `flattenDict`.  (`PyVal.none` never reaches this function — `None`
entries are skipped.) -/
def sanitizeVal : PyVal → PyVal
  | PyVal.str s => PyVal.str s
  | PyVal.int n => PyVal.int n
  | PyVal.bool b => PyVal.bool b
  | PyVal.list l =>
      if l.all isStrVal then PyVal.list l
      else PyVal.str (String.intercalate " | " (l.map pyStr))
  | PyVal.dict d => PyVal.str (flattenDict d)
  | PyVal.none => PyVal.none

/-- Model of `sanitize_metadata` (ingest.py lines 136–167): skip `None` values,
store every other value sanitized under its key. -/
def sanitize_metadata (meta : List (String × PyVal)) : List (String × PyVal) :=
  meta.foldl
    (fun safe kv =>
      if isNoneVal kv.2 then safe else pySet safe kv.1 (sanitizeVal kv.2))
    []

/-! ### Chunk ids (ingest.py, `generate_doc_id`) — MD5 over Nat -/

/-- UTF-8 encoding of one code point (Python `str.encode()`), as bytes. -/
def utf8EncodeChar (n : Nat) : List Nat :=
  if n < 0x80 then [n]
  else if n < 0x800 then
    [0xC0 ||| (n >>> 6), 0x80 ||| (n &&& 0x3F)]
  else if n < 0x10000 then
    [0xE0 ||| (n >>> 12), 0x80 ||| ((n >>> 6) &&& 0x3F), 0x80 ||| (n &&& 0x3F)]
  else
    [0xF0 ||| (n >>> 18), 0x80 ||| ((n >>> 12) &&& 0x3F),
     0x80 ||| ((n >>> 6) &&& 0x3F), 0x80 ||| (n &&& 0x3F)]

/-- Python `text.encode()`: the UTF-8 bytes of a string. -/
def utf8Bytes (s : String) : List Nat :=
  (s.data.map (fun c => utf8EncodeChar c.toNat)).flatten

/-- The 64 MD5 sine-derived round constants. -/
def md5K : List Nat :=
  [0xd76aa478, 0xe8c7b756, 0x242070db, 0xc1bdceee,
   0xf57c0faf, 0x4787c62a, 0xa8304613, 0xfd469501,
   0x698098d8, 0x8b44f7af, 0xffff5bb1, 0x895cd7be,
   0x6b901122, 0xfd987193, 0xa679438e, 0x49b40821,
   0xf61e2562, 0xc040b340, 0x265e5a51, 0xe9b6c7aa,
   0xd62f105d, 0x02441453, 0xd8a1e681, 0xe7d3fbc8,
   0x21e1cde6, 0xc33707d6, 0xf4d50d87, 0x455a14ed,
   0xa9e3e905, 0xfcefa3f8, 0x676f02d9, 0x8d2a4c8a,
   0xfffa3942, 0x8771f681, 0x6d9d6122, 0xfde5380c,
   0xa4beea44, 0x4bdecfa9, 0xf6bb4b60, 0xbebfbc70,
   0x289b7ec6, 0xeaa127fa, 0xd4ef3085, 0x04881d05,
   0xd9d4d039, 0xe6db99e5, 0x1fa27cf8, 0xc4ac5665,
   0xf4292244, 0x432aff97, 0xab9423a7, 0xfc93a039,
   0x655b59c3, 0x8f0ccc92, 0xffeff47d, 0x85845dd1,
   0x6fa87e4f, 0xfe2ce6e0, 0xa3014314, 0x4e0811a1,
   0xf7537e82, 0xbd3af235, 0x2ad7d2bb, 0xeb86d391]

/-- The 64 MD5 per-round left-rotation amounts. -/
def md5S : List Nat :=
  [7, 12, 17, 22, 7, 12, 17, 22, 7, 12, 17, 22, 7, 12, 17, 22,
   5, 9, 14, 20, 5, 9, 14, 20, 5, 9, 14, 20, 5, 9, 14, 20,
   4, 11, 16, 23, 4, 11, 16, 23, 4, 11, 16, 23, 4, 11, 16, 23,
   6, 10, 15, 21, 6, 10, 15, 21, 6, 10, 15, 21, 6, 10, 15, 21]

/-- Left rotation of a 32-bit word on `Nat` (inputs below `2^32`). -/
def leftrotate32 (x c : Nat) : Nat :=
  ((x <<< c) ||| (x >>> (32 - c))) % 4294967296

/-- MD5 padding: `0x80`, zeros to 56 mod 64, then the 64-bit little-endian
bit length. -/
def md5Pad (msg : List Nat) : List Nat :=
  let len := msg.length
  let z := (56 + 64 - ((len + 1) % 64)) % 64
  let bitLen := (len * 8) % 18446744073709551616
  msg ++ [0x80] ++ List.replicate z 0 ++
    ((List.range 8).map (fun i => (bitLen >>> (8 * i)) &&& 0xFF))

/-- Little-endian 32-bit words from a byte list. -/
def toWordsLE : List Nat → List Nat
  | b0 :: b1 :: b2 :: b3 :: rest =>
    (b0 + (b1 <<< 8) + (b2 <<< 16) + (b3 <<< 24)) :: toWordsLE rest
  | _ => []

/-- Split the word list into 512-bit blocks of 16 words each (the padded
message length is a multiple of 64 bytes, hence of 16 words). -/
def chunksOf16 : List Nat → List (List Nat)
  | a0 :: a1 :: a2 :: a3 :: a4 :: a5 :: a6 :: a7 ::
    a8 :: a9 :: a10 :: a11 :: a12 :: a13 :: a14 :: a15 :: rest =>
    [a0, a1, a2, a3, a4, a5, a6, a7, a8, a9, a10, a11, a12, a13, a14, a15] ::
      chunksOf16 rest
  | _ => []

/-- One MD5 round `i` on state `(A, B, C, D)` with message words `M`. -/
def md5Step (M : List Nat) (st : Nat × Nat × Nat × Nat) (i : Nat) :
    Nat × Nat × Nat × Nat :=
  let A := st.1
  let B := st.2.1
  let C := st.2.2.1
  let D := st.2.2.2
  let fg : Nat × Nat :=
    if i < 16 then ((B &&& C) ||| ((B ^^^ 0xFFFFFFFF) &&& D), i)
    else if i < 32 then ((D &&& B) ||| ((D ^^^ 0xFFFFFFFF) &&& C), (5 * i + 1) % 16)
    else if i < 48 then (B ^^^ C ^^^ D, (3 * i + 5) % 16)
    else (C ^^^ (B ||| (D ^^^ 0xFFFFFFFF)), (7 * i) % 16)
  let F := (fg.1 + A + md5K.getD i 0 + M.getD fg.2 0) % 4294967296
  (D, (B + leftrotate32 F (md5S.getD i 0)) % 4294967296, B, C)

/-- Process one block of 16 message words, adding the round output into
the state. -/
def md5ProcessChunk (st : Nat × Nat × Nat × Nat) (M : List Nat) :
    Nat × Nat × Nat × Nat :=
  let r := (List.range 64).foldl (md5Step M) st
  ((st.1 + r.1) % 4294967296, (st.2.1 + r.2.1) % 4294967296,
   (st.2.2.1 + r.2.2.1) % 4294967296, (st.2.2.2 + r.2.2.2) % 4294967296)

/-- Little-endian bytes of a 32-bit word. -/
def wordBytesLE (w : Nat) : List Nat :=
  [w &&& 0xFF, (w >>> 8) &&& 0xFF, (w >>> 16) &&& 0xFF, (w >>> 24) &&& 0xFF]

/-- The 16 MD5 digest bytes of a byte message. -/
def md5Bytes (msg : List Nat) : List Nat :=
  let st := (chunksOf16 (toWordsLE (md5Pad msg))).foldl md5ProcessChunk
    (0x67452301, 0xefcdab89, 0x98badcfe, 0x10325476)
  wordBytesLE st.1 ++ wordBytesLE st.2.1 ++ wordBytesLE st.2.2.1 ++ wordBytesLE st.2.2.2

/-- Lowercase hex digit. -/
def hexDigit (n : Nat) : Char :=
  if n < 10 then Char.ofNat (48 + n) else Char.ofNat (87 + n)

/-- Python `hashlib.md5(text.encode()).hexdigest()`. -/
def md5Hex (s : String) : String :=
  ⟨((md5Bytes (utf8Bytes s)).map (fun b => [hexDigit (b / 16), hexDigit (b % 16)])).flatten⟩

/-- Model of `generate_doc_id` (ingest.py lines 169–174):
`f"{filename}___{index}___{hashlib.md5(text.encode()).hexdigest()[:8]}"`. -/
def generate_doc_id (filename : String) (index : Nat) (text : String) : String :=
  filename ++ "___" ++ toString index ++ "___" ++ pyTake (md5Hex text) 8

/-! ### Proof-side invariant for the retrieval merge -/

/-- Invariant of the running dedup map of `multi_query_retrieve` after the
arrival sequence `seen`: the map's values carry pairwise-distinct ids, the
id set equals the id set of `seen`, and every surviving entry occurs in
`seen`, strictly beats every earlier same-id arrival, and is not beaten by
any same-id arrival at all (ties keep the first-seen entry). -/
def MergeInv (seen acc : List Match) : Prop :=
  (acc.map Match.id).Nodup ∧
  (∀ i, i ∈ acc.map Match.id ↔ i ∈ seen.map Match.id) ∧
  ∀ x ∈ acc,
    (∃ l₁ l₂, seen = l₁ ++ x :: l₂ ∧ ∀ y ∈ l₁, y.id = x.id → y.score < x.score) ∧
    ∀ y ∈ seen, y.id = x.id → y.score ≤ x.score

end Lexora

/-! ## Theorems -/

namespace Lexora

/-! ### The retrieval merge (C1) -/

theorem insertMatch_map_id (acc : List Match) (m : Match) :
    (insertMatch acc m).map Match.id =
      if m.id ∈ acc.map Match.id then acc.map Match.id
      else acc.map Match.id ++ [m.id] := by
  induction acc with
  | nil => simp [insertMatch]
  | cons a rest ih =>
    by_cases h : a.id = m.id
    · have hmem : m.id ∈ (a :: rest).map Match.id := by simp [h]
      rw [if_pos hmem]
      simp only [insertMatch, if_pos h, List.map_cons]
      by_cases hs : m.score > a.score
      · rw [if_pos hs]
        simp [h]
      · rw [if_neg hs]
    · by_cases hm : m.id ∈ rest.map Match.id
      · have hmem : m.id ∈ (a :: rest).map Match.id := by simp [hm]
        rw [if_pos hmem]
        simp only [insertMatch, if_neg h, List.map_cons, ih, if_pos hm]
      · have hmem : m.id ∉ (a :: rest).map Match.id := by
          simp only [List.map_cons, List.mem_cons]
          rintro (hh | hh)
          · exact h hh.symm
          · exact hm hh
        rw [if_neg hmem]
        simp only [insertMatch, if_neg h, List.map_cons, ih, if_neg hm]
        simp

theorem insertMatch_mem (acc : List Match) (m : Match)
    (hnd : (acc.map Match.id).Nodup) :
    ∀ x ∈ insertMatch acc m,
      (x ∈ acc ∧ x.id ≠ m.id) ∨
      (x ∈ acc ∧ x.id = m.id ∧ m.score ≤ x.score) ∨
      (x = m ∧ (m.id ∉ acc.map Match.id ∨
        ∃ a ∈ acc, a.id = m.id ∧ a.score < m.score)) := by
  induction acc with
  | nil =>
    intro x hx
    simp only [insertMatch, List.mem_singleton] at hx
    subst hx
    exact Or.inr (Or.inr ⟨rfl, Or.inl (by simp)⟩)
  | cons a rest ih =>
    intro x hx
    simp only [List.map_cons, List.nodup_cons] at hnd
    obtain ⟨hna, hnr⟩ := hnd
    by_cases h : a.id = m.id
    · simp only [insertMatch, if_pos h] at hx
      rcases List.mem_cons.mp hx with hx1 | hx2
      · by_cases hs : m.score > a.score
        · rw [if_pos hs] at hx1; subst hx1
          exact Or.inr (Or.inr ⟨rfl, Or.inr ⟨a, List.mem_cons_self a rest, h, hs⟩⟩)
        · rw [if_neg hs] at hx1; subst hx1
          exact Or.inr (Or.inl ⟨List.mem_cons_self x rest, h, le_of_not_lt hs⟩)
      · refine Or.inl ⟨List.mem_cons_of_mem _ hx2, fun hxid => hna ?_⟩
        rw [h, ← hxid]
        exact List.mem_map_of_mem Match.id hx2
    · simp only [insertMatch, if_neg h] at hx
      rcases List.mem_cons.mp hx with hx1 | hx2
      · subst hx1
        exact Or.inl ⟨List.mem_cons_self x rest, fun hh => h hh⟩
      · rcases ih hnr x hx2 with ⟨hxr, hne⟩ | ⟨hxr, hid, hle⟩ | ⟨hxm, hfresh⟩
        · exact Or.inl ⟨List.mem_cons_of_mem _ hxr, hne⟩
        · exact Or.inr (Or.inl ⟨List.mem_cons_of_mem _ hxr, hid, hle⟩)
        · refine Or.inr (Or.inr ⟨hxm, ?_⟩)
          rcases hfresh with hf | ⟨a1, ha1, haid, halt⟩
          · refine Or.inl ?_
            simp only [List.map_cons, List.mem_cons]
            rintro (hh | hh)
            · exact h hh.symm
            · exact hf hh
          · exact Or.inr ⟨a1, List.mem_cons_of_mem _ ha1, haid, halt⟩

theorem mergeInv_insert {seen acc : List Match} (m : Match)
    (h : MergeInv seen acc) : MergeInv (seen ++ [m]) (insertMatch acc m) := by
  obtain ⟨hnd, hkeys, hmem⟩ := h
  refine ⟨?_, ?_, ?_⟩
  · rw [insertMatch_map_id]
    split
    · exact hnd
    · rename_i hnotmem
      simp [List.nodup_append, hnd, hnotmem]
  · intro i
    rw [insertMatch_map_id, List.map_append]
    simp only [List.map_cons, List.map_nil]
    split
    · rename_i hin
      constructor
      · intro hi; exact List.mem_append_left _ ((hkeys i).mp hi)
      · intro hi
        rcases List.mem_append.mp hi with hi1 | hi2
        · exact (hkeys i).mpr hi1
        · simp only [List.mem_singleton] at hi2; subst hi2; exact hin
    · constructor
      · intro hi
        rcases List.mem_append.mp hi with hi1 | hi2
        · exact List.mem_append_left _ ((hkeys i).mp hi1)
        · exact List.mem_append_right _ hi2
      · intro hi
        rcases List.mem_append.mp hi with hi1 | hi2
        · exact List.mem_append_left _ ((hkeys i).mpr hi1)
        · exact List.mem_append_right _ hi2
  · intro x hx
    rcases insertMatch_mem acc m hnd x hx with ⟨hxa, hne⟩ | ⟨hxa, hid, hle⟩ | ⟨hxm, hfresh⟩
    · obtain ⟨⟨l₁, l₂, hsplit, hstrict⟩, hglobal⟩ := hmem x hxa
      refine ⟨⟨l₁, l₂ ++ [m], by rw [hsplit]; simp, hstrict⟩, ?_⟩
      intro y hy hyid
      rcases List.mem_append.mp hy with hy1 | hy2
      · exact hglobal y hy1 hyid
      · simp only [List.mem_singleton] at hy2; subst hy2
        exact absurd hyid.symm hne
    · obtain ⟨⟨l₁, l₂, hsplit, hstrict⟩, hglobal⟩ := hmem x hxa
      refine ⟨⟨l₁, l₂ ++ [m], by rw [hsplit]; simp, hstrict⟩, ?_⟩
      intro y hy hyid
      rcases List.mem_append.mp hy with hy1 | hy2
      · exact hglobal y hy1 hyid
      · simp only [List.mem_singleton] at hy2; subst hy2; exact hle
    · subst hxm
      have hstrictAll : ∀ y ∈ seen, y.id = x.id → y.score < x.score := by
        intro y hy hyid
        rcases hfresh with hf | ⟨a, ha, haid, halt⟩
        · exact absurd ((hkeys x.id).mpr (hyid ▸ List.mem_map_of_mem Match.id hy)) hf
        · exact lt_of_le_of_lt ((hmem a ha).2 y hy (hyid.trans haid.symm)) halt
      refine ⟨⟨seen, [], by simp, hstrictAll⟩, ?_⟩
      intro y hy hyid
      rcases List.mem_append.mp hy with hy1 | hy2
      · exact le_of_lt (hstrictAll y hy1 hyid)
      · simp only [List.mem_singleton] at hy2; subst hy2; exact le_rfl

theorem mergeMatches_inv (ms : List Match) : MergeInv ms (mergeMatches ms) := by
  induction ms using List.reverseRecOn with
  | nil => exact ⟨by simp [mergeMatches], by simp [mergeMatches], by simp [mergeMatches]⟩
  | append_singleton ms m ih =>
    have heq : mergeMatches (ms ++ [m]) = insertMatch (mergeMatches ms) m := by
      simp [mergeMatches, List.foldl_append]
    rw [heq]
    exact mergeInv_insert m ih

/-- C1: for every sequence of expanded queries and collection of indexes
(modelled as the arrival sequence `results` of per-(query, index) match
lists), the Multi-Index Retriever's output has pairwise-distinct document
ids; every returned entry occurred in the arrival sequence, carries the
highest score among all same-id arrivals, and — on ties — is the first
same-id arrival achieving that score (expansion order then index
iteration order). -/
theorem multi_query_retrieve_dedup (question : String)
    (results : List (List Match)) :
    ((multi_query_retrieve question results).map Match.id).Nodup ∧
    ∀ x ∈ multi_query_retrieve question results,
      x ∈ results.flatten ∧
      (∀ y ∈ results.flatten, y.id = x.id → y.score ≤ x.score) ∧
      ∃ l₁ l₂, results.flatten = l₁ ++ x :: l₂ ∧
        ∀ y ∈ l₁, y.id = x.id → y.score < x.score := by
  unfold multi_query_retrieve
  split
  · simp
  · obtain ⟨hnd, _, hmem⟩ := mergeMatches_inv results.flatten
    refine ⟨hnd, ?_⟩
    intro x hx
    obtain ⟨⟨l₁, l₂, hsplit, hstrict⟩, hglobal⟩ := hmem x hx
    refine ⟨?_, hglobal, l₁, l₂, hsplit, hstrict⟩
    rw [hsplit]
    exact List.mem_append_right _ (List.mem_cons_self x l₂)

/-- The spec's own example, scores scaled by 10: an id arriving with
scores 7 and 9 survives with score 9, and an equal-score later arrival
does not displace the first-seen entry. -/
theorem multi_query_retrieve_example :
    multi_query_retrieve "q"
      [[⟨"d1", 7, ⟨"t1", "constitution"⟩⟩],
       [⟨"d1", 9, ⟨"t2", "criminal"⟩⟩, ⟨"d1", 9, ⟨"t3", "criminal"⟩⟩,
        ⟨"d2", 5, ⟨"t4", "criminal"⟩⟩]] =
      [⟨"d1", 9, ⟨"t2", "criminal"⟩⟩, ⟨"d2", 5, ⟨"t4", "criminal"⟩⟩] := by
  decide

/-! ### Reranker pass-through (C3) -/

/-- C3: whenever the candidate pool has at most `top_k` elements, the
Reranker returns the pool unchanged and in the same order, for every
possible ranking-call response — in particular its result does not depend
on the language-model call at all. -/
theorem rerank_chunks_passthrough (question : String) (chunks : List Match)
    (top_k : Nat) (resp : Option String) (h : chunks.length ≤ top_k) :
    rerank_chunks question chunks top_k resp = chunks := by
  by_cases he : chunks = []
  · simp [rerank_chunks, he]
  · simp only [rerank_chunks, if_neg he, if_pos h]
    exact List.take_of_length_le h

/-- Witness for C3: a one-element pool with `top_k = 5` passes through
even though the oracle response names other indices. -/
theorem rerank_chunks_passthrough_witness :
    rerank_chunks "q" [⟨"a", 1, ⟨"ta", "s"⟩⟩] 5 (some "2, 0") =
      [⟨"a", 1, ⟨"ta", "s"⟩⟩] :=
  rerank_chunks_passthrough "q" _ 5 (some "2, 0") (by decide)

/-! ### Top-level error containment (C5, C6) -/

/-- C5: `answer_question` always returns one of: the fixed
valid-question prompt, the fixed no-results message, the fixed
empty-context message, the synthesis answer, or — when the synthesis
call raises — the error-prefixed string built from the exception text.
A failure therefore surfaces as a user-facing string and never
propagates. -/
theorem answer_question_no_raise (question : String) (env : QueryEnv) :
    answer_question question env = "Please provide a valid question." ∨
    answer_question question env = "I couldn\x27t find relevant information." ∨
    answer_question question env =
      "I found data but couldn’t extract meaningful content." ∨
    (∃ a, env.synthResp = Except.ok a ∧ answer_question question env = a) ∨
    (∃ e, env.synthResp = Except.error e ∧
      answer_question question env = "❌ Error while answering: " ++ e) := by
  cases hs : env.synthResp with
  | ok a =>
    by_cases h1 : stripWs question = ""
    · exact Or.inl (by simp [answer_question, h1])
    · simp only [answer_question, if_neg h1, hs]
      split
      · exact Or.inr (Or.inl rfl)
      · split
        · exact Or.inr (Or.inr (Or.inl rfl))
        · exact Or.inr (Or.inr (Or.inr (Or.inl ⟨a, rfl, rfl⟩)))
  | error e =>
    by_cases h1 : stripWs question = ""
    · exact Or.inl (by simp [answer_question, h1])
    · simp only [answer_question, if_neg h1, hs]
      split
      · exact Or.inr (Or.inl rfl)
      · split
        · exact Or.inr (Or.inr (Or.inl rfl))
        · exact Or.inr (Or.inr (Or.inr (Or.inr ⟨e, rfl, rfl⟩)))

/-- C6: an empty or whitespace-only question is answered with the fixed
valid-question prompt.  The environment (all network oracles) is
universally quantified and unused, so no pipeline stage and no network
call can influence — or be required for — this answer. -/
theorem answer_question_empty_input (question : String) (env : QueryEnv)
    (h : stripWs question = "") :
    answer_question question env = "Please provide a valid question." := by
  simp [answer_question, h]

/-- Witness for C6: the whitespace question `"   "` against a fully
populated environment. -/
theorem answer_question_empty_input_witness :
    answer_question "   "
      ⟨[[⟨"d", 1, ⟨"t", "constitution"⟩⟩]], [], some "0", Except.ok "an answer"⟩ =
      "Please provide a valid question." :=
  answer_question_empty_input "   " _ (by decide)

/-! ### Chunk-id determinism (C7) -/

/-- C7: `generate_doc_id` is a pure function: two applications to the
same (filename, position index, chunk text) yield the same id, and the id
is exactly the filename, the index and the first 8 hex digits of the MD5
content hash joined by `___` — it depends on nothing else (no timestamp,
no randomness), so re-ingesting unchanged content reproduces ids and
upsert overwrites. -/
theorem generate_doc_id_pure (filename : String) (index : Nat) (text : String) :
    generate_doc_id filename index text = generate_doc_id filename index text ∧
    generate_doc_id filename index text =
      filename ++ "___" ++ toString index ++ "___" ++ pyTake (md5Hex text) 8 :=
  ⟨rfl, rfl⟩

set_option maxRecDepth 100000 in
/-- Known-answer tests anchoring the embedded MD5 to the real algorithm
(RFC 1321 test vectors). -/
theorem md5Hex_known_answers :
    md5Hex "" = "d41d8cd98f00b204e9800998ecf8427e" ∧
    md5Hex "abc" = "900150983cd24fb0d6963f7d28e17f72" := by
  exact ⟨by decide, by decide⟩

set_option maxRecDepth 100000 in
/-- A concrete chunk id: `md5("hello") = 5d41402a...`. -/
theorem generate_doc_id_example :
    generate_doc_id "main.json" 3 "hello" = "main.json___3___5d41402a" := by
  decide


/-! ### Context Assembler budget (C2) -/

theorem pyTake_length_le (s : String) (n : Nat) : (pyTake s n).length ≤ n := by
  show (s.data.take n).length ≤ n
  simp [List.length_take]

theorem rsplitHeadSpace_length_le (s : String) :
    (rsplitHeadSpace s).length ≤ s.length := by
  unfold rsplitHeadSpace
  split
  · show ((((s.data.reverse.dropWhile (fun c => c ≠ ' ')).drop 1)).reverse).length
      ≤ s.data.length
    have h1 : (s.data.reverse.dropWhile (fun c => c ≠ ' ')).length ≤ s.data.length := by
      calc (s.data.reverse.dropWhile (fun c => c ≠ ' ')).length
          ≤ s.data.reverse.length := (s.data.reverse.dropWhile_sublist _).length_le
        _ = s.data.length := List.length_reverse s.data
    rw [List.length_reverse, List.length_drop]
    omega
  · exact le_refl _

theorem buildParts_sum (maxLen : Nat) :
    ∀ (chunks : List Match) (total : Nat), total ≤ maxLen →
      ((buildParts maxLen chunks total).map String.length).sum + total ≤
        maxLen + 3 := by
  intro chunks
  induction chunks with
  | nil =>
    intro total h
    simp only [buildParts, List.map_nil, List.sum_nil]
    omega
  | cons c rest ih =>
    intro total htot
    by_cases hskip : stripWs c.metadata.text = ""
    · simp only [buildParts, if_pos hskip]
      exact ih total htot
    · simp only [buildParts, if_neg hskip]
      set snippet := "[" ++ pyUpper c.metadata.index_source ++ "] " ++ c.metadata.text
        with hsnip
      by_cases hover : total + snippet.length > maxLen
      · rw [if_pos hover]
        by_cases hrem : maxLen - total > 100
        · rw [if_pos hrem]
          simp only [List.map_cons, List.map_nil, List.sum_cons, List.sum_nil]
          have h1 : (rsplitHeadSpace (pyTake snippet (maxLen - total)) ++ "...").length
              ≤ (maxLen - total) + 3 := by
            rw [String.length_append]
            have h2 := rsplitHeadSpace_length_le (pyTake snippet (maxLen - total))
            have h3 := pyTake_length_le snippet (maxLen - total)
            have h4 : ("...".length : Nat) = 3 := rfl
            omega
          omega
        · rw [if_neg hrem]
          simp only [List.map_nil, List.sum_nil]
          omega
      · rw [if_neg hover]
        by_cases hstop : maxLen ≤ total + snippet.length
        · rw [if_pos hstop]
          simp only [List.map_cons, List.map_nil, List.sum_cons, List.sum_nil]
          omega
        · rw [if_neg hstop]
          simp only [List.map_cons, List.sum_cons]
          have hrec := ih (total + snippet.length) (by omega)
          omega

theorem buildParts_length_le (maxLen : Nat) :
    ∀ (chunks : List Match) (total : Nat),
      (buildParts maxLen chunks total).length ≤ chunks.length := by
  intro chunks
  induction chunks with
  | nil => intro total; simp [buildParts]
  | cons c rest ih =>
    intro total
    simp only [buildParts]
    split
    · exact le_trans (ih total) (Nat.le_succ _)
    · split
      · split
        · simp
        · simp
      · split
        · simp
        · simp only [List.length_cons]
          exact Nat.succ_le_succ (ih _)

theorem joinParts_length (ps : List String) :
    (joinParts ps).length ≤ (ps.map String.length).sum + 2 * ps.length := by
  induction ps with
  | nil => simp [joinParts]
  | cons p rest ih =>
    cases rest with
    | nil => simp [joinParts]
    | cons q rest2 =>
      simp only [joinParts, String.length_append]
      simp only [List.map_cons, List.sum_cons, List.length_cons] at ih ⊢
      have h2 : ("\n\n".length : Nat) = 2 := rfl
      omega

/-- C2 counterexample: with budget 20 and four one-character chunks the
assembled string has length 26 > 20 + 3 — the `"\n\n"` join separators
are not counted against the budget, so the output exceeds
`max_length` by more than one truncation suffix. -/
theorem build_context_budget_counterexample :
    ¬ ((build_context
        [⟨"i1", 1, ⟨"a", "s"⟩⟩, ⟨"i2", 1, ⟨"a", "s"⟩⟩,
         ⟨"i3", 1, ⟨"a", "s"⟩⟩, ⟨"i4", 1, ⟨"a", "s"⟩⟩] 20).length
      ≤ 20 + "...".length) := by
  decide

/-- C2 (amended): the sum of the accepted snippet lengths — the quantity
the code's `total_length` budget tracks — never exceeds `max_length` by
more than one `"..."` truncation suffix; the returned string additionally
contains an uncounted two-character `"\n\n"` separator between adjacent
snippets, so its total length is bounded by
`max_length + 3 + 2 · (number of input chunks)`. -/
theorem build_context_budget (chunks : List Match) (max_length : Nat) :
    ((buildParts max_length chunks 0).map String.length).sum ≤
      max_length + "...".length ∧
    (build_context chunks max_length).length ≤
      max_length + "...".length + 2 * chunks.length := by
  have h1 := buildParts_sum max_length chunks 0 (Nat.zero_le _)
  have h3 : ("...".length : Nat) = 3 := rfl
  constructor
  · omega
  · have h2 := joinParts_length (buildParts max_length chunks 0)
    have h4 := buildParts_length_le max_length chunks 0
    unfold build_context
    omega

/-! ### Reranker fallback (C4) -/

theorem insertDesc_perm (m : Match) (l : List Match) :
    (insertDesc m l).Perm (m :: l) := by
  induction l with
  | nil => simp [insertDesc]
  | cons a rest ih =>
    simp only [insertDesc]
    split
    · exact List.Perm.refl _
    · exact (ih.cons a).trans (List.Perm.swap m a rest)

theorem sortByScoreDesc_perm (l : List Match) : (sortByScoreDesc l).Perm l := by
  induction l with
  | nil => simp [sortByScoreDesc]
  | cons a rest ih =>
    show (insertDesc a (sortByScoreDesc rest)).Perm (a :: rest)
    exact (insertDesc_perm a _).trans (ih.cons a)

theorem insertDesc_pairwise (m : Match) (l : List Match)
    (h : l.Pairwise (fun a b => b.score ≤ a.score)) :
    (insertDesc m l).Pairwise (fun a b => b.score ≤ a.score) := by
  induction l with
  | nil => simp [insertDesc]
  | cons a rest ih =>
    rcases List.pairwise_cons.mp h with ⟨ha, hrest⟩
    simp only [insertDesc]
    split
    · rename_i hge
      refine List.pairwise_cons.mpr ⟨?_, h⟩
      intro b hb
      rcases List.mem_cons.mp hb with rfl | hb2
      · exact hge
      · exact le_trans (ha b hb2) hge
    · rename_i hlt
      refine List.pairwise_cons.mpr ⟨?_, ih hrest⟩
      intro b hb
      have hmem := (insertDesc_perm m rest).mem_iff.mp hb
      rcases List.mem_cons.mp hmem with rfl | hb2
      · exact le_of_not_le hlt
      · exact ha b hb2

theorem sortByScoreDesc_sorted (l : List Match) :
    (sortByScoreDesc l).Pairwise (fun a b => b.score ≤ a.score) := by
  induction l with
  | nil => simp [sortByScoreDesc]
  | cons a rest ih =>
    show (insertDesc a (sortByScoreDesc rest)).Pairwise (fun a b => b.score ≤ a.score)
    exact insertDesc_pairwise a _ ih

/-- C4: when the pool is larger than `top_k` and the ranking call fails
(modelled by the `none` oracle response, covering call failure, timeout
and a malformed response object), the Reranker returns the input pool
sorted by descending similarity score, truncated to `top_k` — a total
function, so the failure never escapes. -/
theorem rerank_chunks_fallback (question : String) (chunks : List Match)
    (top_k : Nat) (h : top_k < chunks.length) :
    ∃ sorted : List Match, sorted.Perm chunks ∧
      sorted.Pairwise (fun a b => b.score ≤ a.score) ∧
      rerank_chunks question chunks top_k none = sorted.take top_k := by
  refine ⟨sortByScoreDesc chunks, sortByScoreDesc_perm chunks,
    sortByScoreDesc_sorted chunks, ?_⟩
  have he : chunks ≠ [] := by
    intro hh
    rw [hh] at h
    simp at h
  simp only [rerank_chunks, if_neg he, if_neg (not_le.mpr h)]

/-- Witness for C4 at a three-element pool with `top_k = 2`. -/
theorem rerank_chunks_fallback_witness :
    ∃ sorted : List Match,
      sorted.Perm [⟨"a", 1, ⟨"ta", "s"⟩⟩, ⟨"b", 3, ⟨"tb", "s"⟩⟩, ⟨"c", 2, ⟨"tc", "s"⟩⟩] ∧
      sorted.Pairwise (fun a b => b.score ≤ a.score) ∧
      rerank_chunks "q"
        [⟨"a", 1, ⟨"ta", "s"⟩⟩, ⟨"b", 3, ⟨"tb", "s"⟩⟩, ⟨"c", 2, ⟨"tc", "s"⟩⟩] 2 none =
        sorted.take 2 :=
  rerank_chunks_fallback "q" _ 2 (by decide)

/-- The C4 fallback on the witness pool, evaluated: scores 1, 3, 2 come
back ordered 3, 2. -/
theorem rerank_chunks_fallback_example :
    rerank_chunks "q"
      [⟨"a", 1, ⟨"ta", "s"⟩⟩, ⟨"b", 3, ⟨"tb", "s"⟩⟩, ⟨"c", 2, ⟨"tc", "s"⟩⟩] 2 none =
      [⟨"b", 3, ⟨"tb", "s"⟩⟩, ⟨"c", 2, ⟨"tc", "s"⟩⟩] := by
  decide


/-! ### Metadata sanitization (C8) -/

theorem pySet_eq_append (d : List (String × PyVal)) (k : String) (v : PyVal)
    (h : k ∉ d.map Prod.fst) : pySet d k v = d ++ [(k, v)] := by
  induction d with
  | nil => rfl
  | cons p rest ih =>
    obtain ⟨k0, v0⟩ := p
    simp only [List.map_cons, List.mem_cons] at h
    push_neg at h
    obtain ⟨h1, h2⟩ := h
    simp only [pySet, List.cons_append]
    rw [if_neg (fun hh => h1 hh.symm), ih h2]

theorem sanitize_metadata_aux (meta : List (String × PyVal)) :
    ∀ safe : List (String × PyVal),
      ((safe.map Prod.fst) ++ (meta.map Prod.fst)).Nodup →
      meta.foldl
        (fun safe kv =>
          if isNoneVal kv.2 then safe else pySet safe kv.1 (sanitizeVal kv.2))
        safe =
      safe ++ (meta.filter (fun p => !(isNoneVal p.2))).map
        (fun p => (p.1, sanitizeVal p.2)) := by
  induction meta with
  | nil => intro safe h; simp
  | cons p rest ih =>
    intro safe h
    obtain ⟨k, v⟩ := p
    simp only [List.map_cons] at h
    by_cases hn : isNoneVal v
    · simp only [List.foldl_cons, if_pos hn]
      have hsub : (safe.map Prod.fst ++ rest.map Prod.fst).Sublist
          (safe.map Prod.fst ++ k :: rest.map Prod.fst) :=
        List.Sublist.append_left (List.sublist_cons_self k _) _
      rw [ih safe (hsub.nodup h)]
      simp [List.filter_cons, hn]
    · simp only [List.foldl_cons, if_neg hn]
      have hkfresh : k ∉ safe.map Prod.fst := by
        have hd := (List.nodup_append.mp h).2.2
        intro hk
        exact hd hk (List.mem_cons_self k _)
      rw [pySet_eq_append safe k (sanitizeVal v) hkfresh]
      have hnodup2 : ((safe ++ [(k, sanitizeVal v)]).map Prod.fst ++
          rest.map Prod.fst).Nodup := by
        simp only [List.map_append, List.map_cons, List.map_nil]
        rw [List.append_assoc]
        simpa using h
      rw [ih (safe ++ [(k, sanitizeVal v)]) hnodup2]
      simp [List.filter_cons, hn]

theorem sanitize_metadata_eq (meta : List (String × PyVal))
    (h : (meta.map Prod.fst).Nodup) :
    sanitize_metadata meta =
      (meta.filter (fun p => !(isNoneVal p.2))).map
        (fun p => (p.1, sanitizeVal p.2)) := by
  have := sanitize_metadata_aux meta [] (by simpa using h)
  simpa [sanitize_metadata] using this

theorem keys_nodup_unique_val (meta : List (String × PyVal))
    (h : (meta.map Prod.fst).Nodup) (k : String) (a b : PyVal)
    (ha : (k, a) ∈ meta) (hb : (k, b) ∈ meta) : a = b := by
  induction meta with
  | nil => cases ha
  | cons p rest ih =>
    simp only [List.map_cons, List.nodup_cons] at h
    obtain ⟨hp, hrest⟩ := h
    rcases List.mem_cons.mp ha with rfl | ha2
    · rcases List.mem_cons.mp hb with heq | hb2
      · injection heq with h1 h2
        exact h2.symm
      · exact absurd (List.mem_map_of_mem Prod.fst hb2) (by simpa using hp)
    · rcases List.mem_cons.mp hb with rfl | hb2
      · exact absurd (List.mem_map_of_mem Prod.fst ha2) (by simpa using hp)
      · exact ih hrest ha2 hb2

/-- C8: for any metadata mapping (a Python dict, so its keys are
pairwise distinct), `sanitize_metadata` stores every nested-mapping value
as its `" | "`-delimited flattened string under the same key, and no key
whose value is `None` survives into the stored metadata. -/
theorem sanitize_metadata_spec (meta : List (String × PyVal))
    (h : (meta.map Prod.fst).Nodup) :
    (∀ k d, (k, PyVal.dict d) ∈ meta →
      (k, PyVal.str (flattenDict d)) ∈ sanitize_metadata meta) ∧
    (∀ k, (k, PyVal.none) ∈ meta → ∀ v, (k, v) ∉ sanitize_metadata meta) := by
  rw [sanitize_metadata_eq meta h]
  constructor
  · intro k d hkd
    have h1 : (k, PyVal.dict d) ∈ meta.filter (fun p => !(isNoneVal p.2)) :=
      List.mem_filter.mpr ⟨hkd, by simp [isNoneVal]⟩
    have h2 := List.mem_map_of_mem (fun p => (p.1, sanitizeVal p.2)) h1
    simpa [sanitizeVal] using h2
  · intro k hknone v hv
    rcases List.mem_map.mp hv with ⟨p, hp, hpe⟩
    have hpmeta := (List.mem_filter.mp hp).1
    have hpton := (List.mem_filter.mp hp).2
    have hp1 : p.1 = k := congrArg Prod.fst hpe
    have hpnone : p.2 = PyVal.none := by
      refine keys_nodup_unique_val meta h k p.2 PyVal.none ?_ hknone
      rw [← hp1]
      exact hpmeta
    rw [hpnone] at hpton
    simp [isNoneVal] at hpton

/-- Witness for C8: the spec scenario — a nested mapping
`{"a": 1, "b": 2}` under key `"details"` is stored flattened, and the
`None`-valued key `"x"` is absent from the stored metadata. -/
theorem sanitize_metadata_spec_witness :
    ("details", PyVal.str (flattenDict [("a", PyVal.int 1), ("b", PyVal.int 2)])) ∈
      sanitize_metadata
        [("details", PyVal.dict [("a", PyVal.int 1), ("b", PyVal.int 2)]),
         ("x", PyVal.none)] ∧
    ∀ v, ("x", v) ∉ sanitize_metadata
        [("details", PyVal.dict [("a", PyVal.int 1), ("b", PyVal.int 2)]),
         ("x", PyVal.none)] := by
  have h := sanitize_metadata_spec
    [("details", PyVal.dict [("a", PyVal.int 1), ("b", PyVal.int 2)]),
     ("x", PyVal.none)]
    (by decide)
  exact ⟨h.1 "details" _ (List.mem_cons_self _ _),
    h.2 "x" (List.mem_cons_of_mem _ (List.mem_cons_self _ _))⟩

/-- The flattened string of the spec example is exactly `"a:1 | b:2"`. -/
theorem flattenDict_example :
    flattenDict [("a", PyVal.int 1), ("b", PyVal.int 2)] = "a:1 | b:2" := by
  decide

/-! ### Query expansion (C9) -/

/-- C9 counterexample: expansion responses with four distinct variation
lines make the candidate set exceed `n + 1 = 4` entries; under a set
iteration order that lists the original question last (here the reversal,
a permutation of the set — Python string hashing is randomized, so any
order is admissible), the `[:n+1]` truncation drops the original
question from the returned list. -/
theorem generate_alternative_queries_counterexample :
    (List.reverse (candidateSet "q" (stripWs "alpha\nbeta\ngamma\ndelta"))).Perm
      (candidateSet "q" (stripWs "alpha\nbeta\ngamma\ndelta")) ∧
    "q" ∉ generate_alternative_queries "q" 3 (some "alpha\nbeta\ngamma\ndelta")
      List.reverse := by
  constructor
  · exact List.reverse_perm _
  · decide

/-- C9 (amended): for a non-blank question, a failed expansion call
yields the singleton original; a successful call yields a deduplicated
list of at most `n + 1` entries, each of which is the original question
or a parsed variation line, under any set iteration order (any
permutation of the candidate set).  The original question is guaranteed
to be among them only when the candidate set itself has at most `n + 1`
entries; otherwise the unspecified set order may push it past the
truncation. -/
theorem generate_alternative_queries_amended (question raw : String) (n : Nat)
    (order : List String → List String)
    (hq : stripWs question ≠ "")
    (horder : (order (candidateSet question (stripWs raw))).Perm
      (candidateSet question (stripWs raw))) :
    generate_alternative_queries question n none order = [question] ∧
    (generate_alternative_queries question n (some raw) order).Nodup ∧
    (generate_alternative_queries question n (some raw) order).length ≤ n + 1 ∧
    (∀ s ∈ generate_alternative_queries question n (some raw) order,
      s = question ∨ s ∈ variationsOf (stripWs raw)) ∧
    ((candidateSet question (stripWs raw)).length ≤ n + 1 →
      question ∈ generate_alternative_queries question n (some raw) order) := by
  have hcs : (candidateSet question (stripWs raw)).Nodup := List.nodup_dedup _
  have hordnd : (order (candidateSet question (stripWs raw))).Nodup :=
    horder.symm.nodup hcs
  refine ⟨?_, ?_, ?_, ?_, ?_⟩
  · simp [generate_alternative_queries, hq]
  · simp only [generate_alternative_queries, if_neg hq]
    exact (List.take_sublist _ _).nodup hordnd
  · simp only [generate_alternative_queries, if_neg hq]
    simp [List.length_take]
  · intro s hs
    simp only [generate_alternative_queries, if_neg hq] at hs
    have h1 : s ∈ order (candidateSet question (stripWs raw)) :=
      List.mem_of_mem_take hs
    have h2 : s ∈ candidateSet question (stripWs raw) := horder.mem_iff.mp h1
    have h3 := List.mem_dedup.mp h2
    rcases List.mem_cons.mp h3 with rfl | hv
    · exact Or.inl rfl
    · exact Or.inr hv
  · intro hlen
    simp only [generate_alternative_queries, if_neg hq]
    have hlen2 : (order (candidateSet question (stripWs raw))).length ≤ n + 1 := by
      rw [horder.length_eq]; exact hlen
    rw [List.take_of_length_le hlen2]
    exact horder.mem_iff.mpr
      (List.mem_dedup.mpr (List.mem_cons_self question _))

/-- Witness for C9 (amended) with `order = id` and a two-line response:
the candidate set has 3 ≤ 4 entries, so the original question survives. -/
theorem generate_alternative_queries_amended_witness :
    generate_alternative_queries "q" 3 none id = ["q"] ∧
    (generate_alternative_queries "q" 3 (some "alpha\nbeta") id).Nodup ∧
    (generate_alternative_queries "q" 3 (some "alpha\nbeta") id).length ≤ 3 + 1 ∧
    (∀ s ∈ generate_alternative_queries "q" 3 (some "alpha\nbeta") id,
      s = "q" ∨ s ∈ variationsOf (stripWs "alpha\nbeta")) ∧
    ((candidateSet "q" (stripWs "alpha\nbeta")).length ≤ 3 + 1 →
      "q" ∈ generate_alternative_queries "q" 3 (some "alpha\nbeta") id) :=
  generate_alternative_queries_amended "q" "alpha\nbeta" 3 id (by decide)
    (List.Perm.refl _)


/-! ### Reranker output cardinality and provenance (C10) -/

theorem selectIdx_nodup_lt (n k : Nat) :
    ∀ (nums acc : List Nat), acc.Nodup → (∀ i ∈ acc, i < n) →
      (selectIdx nums n k acc).Nodup ∧ ∀ i ∈ selectIdx nums n k acc, i < n := by
  intro nums
  induction nums with
  | nil => intro acc h1 h2; exact ⟨h1, h2⟩
  | cons num rest ih =>
    intro acc h1 h2
    simp only [selectIdx]
    by_cases hc : num < n ∧ num ∉ acc
    · rw [show (if num < n ∧ num ∉ acc then acc ++ [num] else acc) = acc ++ [num]
        from if_pos hc]
      have h1n : (acc ++ [num]).Nodup := by simp [List.nodup_append, h1, hc.2]
      have h2n : ∀ i ∈ acc ++ [num], i < n := by
        intro i hi
        rcases List.mem_append.mp hi with hi1 | hi2
        · exact h2 i hi1
        · simp only [List.mem_singleton] at hi2
          subst hi2
          exact hc.1
      split
      · exact ⟨h1n, h2n⟩
      · exact ih (acc ++ [num]) h1n h2n
    · rw [show (if num < n ∧ num ∉ acc then acc ++ [num] else acc) = acc
        from if_neg hc]
      split
      · exact ⟨h1, h2⟩
      · exact ih acc h1 h2

theorem padIdx_inv (k : Nat) :
    ∀ (is acc : List Nat), acc.Nodup →
      (padIdx acc k is).Nodup ∧
      (∀ x ∈ padIdx acc k is, x ∈ acc ∨ x ∈ is) ∧
      (∀ x ∈ acc, x ∈ padIdx acc k is) ∧
      (k ≤ (padIdx acc k is).length ∨ ∀ i ∈ is, i ∈ padIdx acc k is) := by
  intro is
  induction is with
  | nil =>
    intro acc h
    exact ⟨h, fun x hx => Or.inl hx, fun x hx => hx, Or.inr (by simp)⟩
  | cons i rest ih =>
    intro acc h
    simp only [padIdx]
    by_cases hc : i ∉ acc
    · rw [show (if i ∉ acc then acc ++ [i] else acc) = acc ++ [i] from if_pos hc]
      have h2 : (acc ++ [i]).Nodup := by simp [List.nodup_append, h, hc]
      have hmemi : i ∈ acc ++ [i] := List.mem_append_right _ (by simp)
      split
      · rename_i hstop
        refine ⟨h2, ?_, ?_, Or.inl hstop⟩
        · intro x hx
          rcases List.mem_append.mp hx with hx1 | hx2
          · exact Or.inl hx1
          · simp only [List.mem_singleton] at hx2
            exact Or.inr (by simp [hx2])
        · intro x hx
          exact List.mem_append_left _ hx
      · obtain ⟨p1, p2, p3, p4⟩ := ih (acc ++ [i]) h2
        refine ⟨p1, ?_, ?_, ?_⟩
        · intro x hx
          rcases p2 x hx with hxa | hxr
          · rcases List.mem_append.mp hxa with h5 | h5
            · exact Or.inl h5
            · simp only [List.mem_singleton] at h5
              exact Or.inr (by simp [h5])
          · exact Or.inr (List.mem_cons_of_mem _ hxr)
        · intro x hx
          exact p3 x (List.mem_append_left _ hx)
        · rcases p4 with h4 | h4
          · exact Or.inl h4
          · refine Or.inr ?_
            intro j hj
            rcases List.mem_cons.mp hj with rfl | hjr
            · exact p3 j hmemi
            · exact h4 j hjr
    · rw [show (if i ∉ acc then acc ++ [i] else acc) = acc from if_neg hc]
      have hin : i ∈ acc := not_not.mp hc
      split
      · rename_i hstop
        exact ⟨h, fun x hx => Or.inl hx, fun x hx => hx, Or.inl hstop⟩
      · obtain ⟨p1, p2, p3, p4⟩ := ih acc h
        refine ⟨p1, ?_, p3, ?_⟩
        · intro x hx
          rcases p2 x hx with h5 | h5
          · exact Or.inl h5
          · exact Or.inr (List.mem_cons_of_mem _ h5)
        · rcases p4 with h4 | h4
          · exact Or.inl h4
          · refine Or.inr ?_
            intro j hj
            rcases List.mem_cons.mp hj with rfl | hjr
            · exact p3 j hin
            · exact h4 j hjr

theorem countP_getD_range (l : List Match) (x : Match) :
    List.countP (fun i => l.getD i default == x) (List.range l.length) =
      List.countP (fun y => y == x) l := by
  induction l with
  | nil => simp
  | cons a t ih =>
    rw [List.length_cons, List.range_succ_eq_map, List.countP_cons,
      List.countP_map, List.countP_cons]
    have hcomp : ((fun i => (a :: t).getD i default == x) ∘ Nat.succ) =
        (fun i => t.getD i default == x) := by
      funext i
      rw [Function.comp_apply, List.getD_cons_succ]
    have h0 : ((a :: t).getD 0 default == x) = (a == x) := by
      rw [List.getD_cons_zero]
    rw [hcomp, ih, h0]

theorem index_map_subperm (l : List Match) (idx : List Nat)
    (hnd : idx.Nodup) (hlt : ∀ i ∈ idx, i < l.length) :
    (idx.map (fun i => l.getD i default)).Subperm l := by
  rw [List.subperm_ext_iff]
  intro x hx
  rw [List.count_eq_countP, List.count_eq_countP, List.countP_map,
    ← countP_getD_range l x]
  have hfun : ((fun y => y == x) ∘ fun i => l.getD i default) =
      (fun i => l.getD i default == x) := rfl
  rw [hfun]
  rw [List.countP_eq_length_filter, List.countP_eq_length_filter]
  apply List.Subperm.length_le
  apply List.subperm_of_subset
  · exact hnd.filter _
  · intro i hi
    rw [List.mem_filter] at hi ⊢
    exact ⟨List.mem_range.mpr (hlt i hi.1), hi.2⟩

theorem take_map_getD_spec (chunks : List Match) (top_k : Nat) (sel : List Nat)
    (hnd : sel.Nodup) (hlt : ∀ i ∈ sel, i < chunks.length)
    (hlen : top_k ≤ sel.length) :
    ((sel.take top_k).map (fun i => chunks.getD i default)).length = top_k ∧
    ((sel.take top_k).map (fun i => chunks.getD i default)).Subperm chunks := by
  constructor
  · rw [List.length_map, List.length_take]
    omega
  · refine index_map_subperm chunks (sel.take top_k) ?_ ?_
    · exact (List.take_sublist _ _).nodup hnd
    · intro i hi
      exact hlt i (List.mem_of_mem_take hi)

/-- C10: in every branch — empty pool, pass-through, successful parse of
the ranking response (whatever integer tokens it contains, with or
without deterministic padding), and score-sort fallback — the Reranker
returns exactly `min top_k (pool size)` chunks, and the returned list is
a sub-permutation of the input pool: distinct input positions, nothing
repeated, nothing foreign. -/
theorem rerank_chunks_selection (question : String) (chunks : List Match)
    (top_k : Nat) (resp : Option String) :
    (rerank_chunks question chunks top_k resp).length = min top_k chunks.length ∧
    (rerank_chunks question chunks top_k resp).Subperm chunks := by
  by_cases he : chunks = []
  · subst he
    refine ⟨by simp [rerank_chunks], by simp [rerank_chunks]⟩
  · by_cases hle : chunks.length ≤ top_k
    · simp only [rerank_chunks, if_neg he, if_pos hle]
      rw [List.take_of_length_le hle]
      exact ⟨(Nat.min_eq_right hle).symm, (List.Perm.refl chunks).subperm⟩
    · have htk : top_k < chunks.length := not_le.mp hle
      cases resp with
      | none =>
        simp only [rerank_chunks, if_neg he, if_neg hle]
        constructor
        · rw [List.length_take, (sortByScoreDesc_perm chunks).length_eq]
        · exact (List.take_sublist _ _).subperm.trans
            (sortByScoreDesc_perm chunks).subperm
      | some raw =>
        simp only [rerank_chunks, if_neg he, if_neg hle]
        set sel := selectIdx (pyFindNumbers (stripWs raw)) chunks.length top_k []
          with hseldef
        obtain ⟨hselnd, hsellt⟩ := selectIdx_nodup_lt chunks.length top_k
          (pyFindNumbers (stripWs raw)) [] (by simp) (by simp)
        rw [← hseldef] at hselnd hsellt
        by_cases hs : sel.length < top_k
        · rw [if_pos hs]
          obtain ⟨p1, p2, p3, p4⟩ :=
            padIdx_inv top_k (List.range chunks.length) sel hselnd
          have plt : ∀ i ∈ padIdx sel top_k (List.range chunks.length),
              i < chunks.length := by
            intro i hi
            rcases p2 i hi with h5 | h5
            · exact hsellt i h5
            · exact List.mem_range.mp h5
          have plen : top_k ≤ (padIdx sel top_k (List.range chunks.length)).length := by
            rcases p4 with h4 | h4
            · exact h4
            · have hsub2 : List.range chunks.length ⊆
                  padIdx sel top_k (List.range chunks.length) :=
                fun j hj => h4 j hj
              have hl := (List.subperm_of_subset (List.nodup_range _) hsub2).length_le
              rw [List.length_range] at hl
              omega
          obtain ⟨q1, q2⟩ := take_map_getD_spec chunks top_k _ p1 plt plen
          exact ⟨by rw [q1, Nat.min_eq_left (le_of_lt htk)], q2⟩
        · rw [if_neg hs]
          obtain ⟨q1, q2⟩ :=
            take_map_getD_spec chunks top_k sel hselnd hsellt (not_lt.mp hs)
          exact ⟨by rw [q1, Nat.min_eq_left (le_of_lt htk)], q2⟩

/-- Parse-path evaluation: response text `"Chunks: 2, 0, 2, 99"` selects
positions 2 then 0 (duplicates and out-of-range tokens discarded). -/
theorem rerank_chunks_parse_example :
    rerank_chunks "q"
      [⟨"a", 1, ⟨"ta", "s"⟩⟩, ⟨"b", 3, ⟨"tb", "s"⟩⟩, ⟨"c", 2, ⟨"tc", "s"⟩⟩] 2
      (some "Chunks: 2, 0, 2, 99") =
      [⟨"c", 2, ⟨"tc", "s"⟩⟩, ⟨"a", 1, ⟨"ta", "s"⟩⟩] := by
  decide

/-- Padding-path evaluation: a response with no usable integer tokens
falls back to the first `top_k` pool positions in order. -/
theorem rerank_chunks_padding_example :
    rerank_chunks "q"
      [⟨"a", 1, ⟨"ta", "s"⟩⟩, ⟨"b", 3, ⟨"tb", "s"⟩⟩, ⟨"c", 2, ⟨"tc", "s"⟩⟩] 2
      (some "no usable tokens") =
      [⟨"a", 1, ⟨"ta", "s"⟩⟩, ⟨"b", 3, ⟨"tb", "s"⟩⟩] := by
  decide

end Lexora
